import Mathlib

/-!
Shallow embedding of the MovieLens two-tower recommender
(MovieLensApp in the main script, SimpleTwoTowerModel / DeepTwoTowerModel
in two-tower.js).

Conventions of the embedding:
* JS numbers that can be NaN are modelled as Option values (none = NaN);
  the ids and timestamps produced by parseInt are Option Int, the ratings
  produced by parseFloat are Option Rat.
* A JS Map is modelled as an association list together with jsSet / jsGet,
  which reproduce Map.set (update in place, insert at the end) and Map.get
  (first matching key, none = undefined).  JS Map and Set key equality is
  SameValueZero, under which NaN equals NaN; this is exactly equality of
  the Option-typed keys used here.
* A JS Set iterated with Array.from is modelled by firstSeen, which keeps
  the first occurrence of every element in input order.
* Text inputs are modelled at the granularity the code consumes them:
  a file is a list of lines, each line already split on the delimiter
  (tab for u.data, pipe for u.item and u.user), so a line is a list of
  fields.  Destructuring a missing field gives undefined, modelled as the
  none result of the safe indexing operator.
-/

namespace RecSys

/-- JS Map.set on an association list: if the key is present, replace the
value in place (keeping the insertion position), otherwise append the new
pair at the end. -/
def jsSet {α β : Type} [DecidableEq α] : List (α × β) → α → β → List (α × β)
  | [], k, v => [(k, v)]
  | p :: rest, k, v => if p.1 = k then (k, v) :: rest else p :: jsSet rest k v

/-- JS Map.get on an association list: value of the first pair with the
given key, none when the key is absent (undefined). -/
def jsGet {α β : Type} [DecidableEq α] (m : List (α × β)) (k : α) : Option β :=
  (m.find? (fun p => decide (p.1 = k))).map Prod.snd

/-- Helper of firstSeen: keep every element not yet seen, in order,
threading the set of elements already seen. -/
def firstSeenAux {α : Type} [DecidableEq α] : List α → List α → List α
  | [], _ => []
  | x :: xs, seen =>
    if x ∈ seen then firstSeenAux xs seen
    else x :: firstSeenAux xs (x :: seen)

/-- Iteration order of a JS Set built by inserting the elements of a list in
order: the distinct elements in first-seen order.  Used for
Array.from(new Set(xs)). -/
def firstSeen {α : Type} [DecidableEq α] (l : List α) : List α :=
  firstSeenAux l []

/-- Numeric value of a list of decimal digit characters. -/
def digitsVal (cs : List Char) : ℕ :=
  cs.foldl (fun acc c => 10 * acc + (c.toNat - '0'.toNat)) 0

/-- Value of the maximal leading run of decimal digits, none when the first
character is not a digit. -/
def leadingDigits (cs : List Char) : Option ℕ :=
  match cs with
  | [] => none
  | c :: _ => if c.isDigit then some (digitsVal (cs.takeWhile Char.isDigit)) else none

/-- Model of JS parseInt on a string field: an optional sign followed by at
least one decimal digit parses to the value of the leading digit run;
anything else is NaN (none).  The radix-prefix and whitespace handling of
parseInt play no role for the fields the loader parses. -/
def parseIntStr (s : String) : Option ℤ :=
  match s.toList with
  | '-' :: rest => (leadingDigits rest).map (fun n => -(n : ℤ))
  | '+' :: rest => (leadingDigits rest).map (fun n => (n : ℤ))
  | cs => (leadingDigits cs).map (fun n => (n : ℤ))

/-- JS parseInt applied to a possibly-undefined field: parseInt(undefined)
is NaN. -/
def jsParseInt (s : Option String) : Option ℤ :=
  s.bind parseIntStr

/-- Value 0.d1 d2 ... of a list of fraction digit characters. -/
def fracVal (cs : List Char) : ℚ :=
  cs.foldr (fun c acc => (acc + ((c.toNat - '0'.toNat : ℕ) : ℚ)) / 10) 0

/-- Magnitude part of JS parseFloat: leading digits with an optional
fractional part, or a fractional part alone; none when the string does not
start with a digit or a point followed by a digit. -/
def parseFloatMag (cs : List Char) : Option ℚ :=
  match cs with
  | '.' :: rest =>
    match rest with
    | c :: _ => if c.isDigit then some (fracVal (rest.takeWhile Char.isDigit)) else none
    | [] => none
  | c :: _ =>
    if c.isDigit then
      let intPart := cs.takeWhile Char.isDigit
      match cs.dropWhile Char.isDigit with
      | '.' :: fs => some ((digitsVal intPart : ℚ) + fracVal (fs.takeWhile Char.isDigit))
      | _ => some ((digitsVal intPart : ℕ) : ℚ)
    else none
  | [] => none

/-- Model of JS parseFloat on a string field: optional sign followed by a
decimal magnitude; anything else is NaN (none). -/
def parseFloatStr (s : String) : Option ℚ :=
  match s.toList with
  | '-' :: rest => (parseFloatMag rest).map (fun q => -q)
  | '+' :: rest => parseFloatMag rest
  | cs => parseFloatMag cs

/-- JS parseFloat applied to a possibly-undefined field. -/
def jsParseFloat (s : Option String) : Option ℚ :=
  s.bind parseFloatStr

/-- An interaction record as built by loadData from one tab-split line of
u.data: parseInt / parseFloat results, NaN (none) where a field is missing
or not numeric. -/
structure RawInteraction where
  userId : Option ℤ
  itemId : Option ℤ
  rating : Option ℚ
  timestamp : Option ℤ
deriving DecidableEq

/-- loadData's per-line interaction parse: destructure the first four
fields (missing fields are undefined) and apply parseInt / parseFloat.
No error is ever raised; unparsable fields become NaN. -/
def parseInteractionLine (fields : List String) : RawInteraction :=
  { userId := jsParseInt fields[0]?
    itemId := jsParseInt fields[1]?
    rating := jsParseFloat fields[2]?
    timestamp := jsParseInt fields[3]? }

/-- loadData's interaction parse: truncate to the first maxInteractions
lines (slice) and map the per-line parse over them. -/
def parseInteractions (lines : List (List String)) (maxInteractions : ℕ) :
    List RawInteraction :=
  (lines.take maxInteractions).map parseInteractionLine

/-- An item record as built by loadData from one pipe-split line of
u.item. -/
structure ItemRec where
  title : String
  year : Option ℤ
  genres : List (Option ℤ)
deriving DecidableEq

/-- Match of the trailing year pattern (yyyy) at the end of a title,
as in title.match against the four-digit parenthesised suffix. -/
def yearSuffix (title : String) : Option ℤ :=
  match title.toList.reverse with
  | ')' :: w :: x :: y :: z :: '(' :: _ =>
    if w.isDigit ∧ x.isDigit ∧ y.isDigit ∧ z.isDigit then
      some ((digitsVal [z, y, x, w] : ℕ) : ℤ)
    else none
  | _ => none

/-- Removal of the trailing (yyyy) suffix from a title followed by trim,
as in title.replace with the same pattern and String.trim. -/
def stripYearSuffix (title : String) : String :=
  match title.toList.reverse with
  | ')' :: w :: x :: y :: z :: '(' :: rest =>
    if w.isDigit ∧ x.isDigit ∧ y.isDigit ∧ z.isDigit then
      (String.mk rest.reverse).trim
    else title.trim
  | _ => title.trim

/-- One item line of loadData.  When the title field (parts[1]) is missing
the source calls title.match on undefined and throws, modelled as none;
otherwise the key is parseInt of the id field and the record collects the
stripped title, optional year and the genre flags from the sixth field on.
The line is never rejected for a non-numeric id: parseInt just yields
NaN. -/
def parseItemLine (parts : List String) : Option ((Option ℤ) × ItemRec) :=
  match parts[1]? with
  | none => none
  | some title =>
    some (jsParseInt parts[0]?,
      { title := stripYearSuffix title
        year := yearSuffix title
        genres := (parts.drop 5).map (fun g => parseIntStr g) })

/-- The forEach over item lines: set each parsed line into the existing
items map, stopping at the first line that throws.  Returns the map as
mutated so far together with a flag recording whether a throw happened. -/
def parseItemsInto : List (List String) → List (Option ℤ × ItemRec) →
    (List (Option ℤ × ItemRec)) × Bool
  | [], m => (m, false)
  | line :: rest, m =>
    match parseItemLine line with
    | none => (m, true)
    | some (k, v) => parseItemsInto rest (jsSet m k v)

/-- A user record as built by loadData from one pipe-split line of u.user.
The occupation field can be undefined when the line is short. -/
structure UserRec where
  age : Option ℚ
  gender : ℚ
  occupation : Option String
deriving DecidableEq

/-- One user line of loadData: id and age through parseInt (age divided by
100), gender 1 exactly for the string M, occupation taken verbatim.  This
parse cannot throw. -/
def parseUserLine (fields : List String) : (Option ℤ) × UserRec :=
  (jsParseInt fields[0]?,
   { age := (jsParseInt fields[1]?).map (fun a => (a : ℚ) / 100)
     gender := if fields[2]? = some "M" then 1 else 0
     occupation := fields[3]? })

/-- Ordering used to sort the distinct occupation strings: the default
string comparator of Array.sort, which on the ASCII occupation strings of
the dataset coincides with the lexicographic order modelled here. -/
def strLE (a b : String) : Prop := ¬ b < a

instance : DecidableRel strLE := fun a b => by
  unfold strLE; infer_instance

/-- Occupation vocabulary construction of loadData: the distinct occupation
values in insertion order, sorted by the default comparator (an undefined
occupation, possible on a short line, sorts after every string), each set
into the existing vocabulary map under its sorted position. -/
def buildVocabInto (prior : List (Option String × ℕ))
    (occs : List (Option String)) : List (Option String × ℕ) :=
  let distinct := firstSeen occs
  let ordered := ((distinct.filterMap id).insertionSort strLE).map some ++
    distinct.filter (fun o => o.isNone)
  ordered.enum.foldl (fun m p => jsSet m p.2 p.1) prior

/-- First half of createMappings, for either id kind: Array.from of the Set
of ids gives the distinct ids in first-seen order; the forEach sets
id to index into the existing forward map and index to id into the existing
reverse map. -/
def buildIndexMaps {κ : Type} [DecidableEq κ]
    (prior : List (κ × ℕ)) (priorRev : List (ℕ × κ)) (ids : List κ) :
    List (κ × ℕ) × List (ℕ × κ) :=
  let distinct := firstSeen ids
  (distinct.enum.foldl (fun m p => jsSet m p.2 p.1) prior,
   distinct.enum.foldl (fun m p => jsSet m p.1 p.2) priorRev)

/-- Second half of createMappings: the forEach over interactions that
groups them by key with a has or push pattern.  Keys appear in first-seen
order and each group keeps the input order. -/
def groupByKey {κ α : Type} [DecidableEq κ] (key : α → κ) (l : List α) :
    List (κ × List α) :=
  l.foldl (fun m a =>
    match jsGet m (key a) with
    | none => jsSet m (key a) [a]
    | some g => jsSet m (key a) (g ++ [a])) []

/-- An interaction with all four fields numeric, the well-formed shape
every record of the MovieLens files parses to.  The indexing, history and
qualification claims are stated over arbitrary lists of these. -/
structure Interaction where
  userId : ℤ
  itemId : ℤ
  rating : ℚ
  timestamp : ℤ
deriving DecidableEq

/-- Sort order of the per-user history comparator: a may precede b exactly
when b.rating - a.rating is negative, or zero with b.timestamp - a.timestamp
nonpositive; that is, rating descending with timestamp descending as the
tie-break. -/
def histLE (a b : Interaction) : Prop :=
  b.rating < a.rating ∨ (b.rating = a.rating ∧ b.timestamp ≤ a.timestamp)

instance : DecidableRel histLE := fun a b => by
  unfold histLE; infer_instance

instance : IsTotal Interaction histLE :=
  ⟨fun a b => by
    unfold histLE
    rcases lt_trichotomy a.rating b.rating with h | h | h
    · exact Or.inr (Or.inl h)
    · rcases le_total b.timestamp a.timestamp with ht | ht
      · exact Or.inl (Or.inr ⟨h.symm, ht⟩)
      · exact Or.inr (Or.inr ⟨h, ht⟩)
    · exact Or.inl (Or.inl h)⟩

instance : IsTrans Interaction histLE :=
  ⟨fun a b c hab hbc => by
    unfold histLE at *
    rcases hab with h1 | ⟨e1, t1⟩
    · rcases hbc with h2 | ⟨e2, t2⟩
      · exact Or.inl (h2.trans h1)
      · exact Or.inl (e2 ▸ h1)
    · rcases hbc with h2 | ⟨e2, t2⟩
      · exact Or.inl (e1 ▸ h2)
      · exact Or.inr ⟨e2.trans e1, t2.trans t1⟩⟩

/-- Per-user rated history of createMappings on a well-formed interaction
list: group by userId, then sort every group with the rating-descending,
timestamp-descending comparator. -/
def userTopRatedOf (l : List Interaction) : List (ℤ × List Interaction) :=
  (groupByKey (fun i => i.userId) l).map
    (fun p => (p.1, p.2.insertionSort histLE))

/-- findQualifiedUsers: iterate the per-user history map and push every
key whose group has at least 20 interactions. -/
def qualifiedOf {κ : Type} {α : Type} (hist : List (κ × List α)) : List κ :=
  hist.foldl (fun acc p => if 20 ≤ p.2.length then acc ++ [p.1] else acc) []

/-- Distinct user ids of an interaction list in first-seen order. -/
def distinctUserIds (l : List Interaction) : List ℤ :=
  firstSeen (l.map (fun i => i.userId))

/-- Distinct item ids of an interaction list in first-seen order. -/
def distinctItemIds (l : List Interaction) : List ℤ :=
  firstSeen (l.map (fun i => i.itemId))

/-- The userMap built by createMappings from empty prior maps, as on the
first load of a fresh application instance. -/
def userMapOf (l : List Interaction) : List (ℤ × ℕ) :=
  (buildIndexMaps [] [] (l.map (fun i => i.userId))).1

/-- The reverseUserMap built by createMappings from empty prior maps. -/
def reverseUserMapOf (l : List Interaction) : List (ℕ × ℤ) :=
  (buildIndexMaps [] [] (l.map (fun i => i.userId))).2

/-- The itemMap built by createMappings from empty prior maps. -/
def itemMapOf (l : List Interaction) : List (ℤ × ℕ) :=
  (buildIndexMaps [] [] (l.map (fun i => i.itemId))).1

/-- The reverseItemMap built by createMappings from empty prior maps. -/
def reverseItemMapOf (l : List Interaction) : List (ℕ × ℤ) :=
  (buildIndexMaps [] [] (l.map (fun i => i.itemId))).2

/-- Subtraction of two JS numbers that may be NaN. -/
def jsSubQ (a b : Option ℚ) : Option ℚ :=
  match a, b with
  | some x, some y => some (x - y)
  | _, _ => none

/-- Subtraction of two JS integer values that may be NaN. -/
def jsSubZ (a b : Option ℤ) : Option ℤ :=
  match a, b with
  | some x, some y => some (x - y)
  | _, _ => none

/-- Timestamp part of the history comparator on raw records; a NaN
difference is treated as zero by the sort machinery. -/
def rawCmpSnd (a b : RawInteraction) : ℚ :=
  match jsSubZ b.timestamp a.timestamp with
  | some d => (d : ℚ)
  | none => 0

/-- History comparator on raw records, with JS semantics: the rating
difference falls through to the timestamp difference when it is zero or
NaN (both falsy), and a NaN overall result acts as zero. -/
def rawCmp (a b : RawInteraction) : ℚ :=
  match jsSubQ b.rating a.rating with
  | some d => if d = 0 then rawCmpSnd a b else d
  | none => rawCmpSnd a b

/-- Sort order induced by the raw history comparator. -/
def rawHistLE (a b : RawInteraction) : Prop := rawCmp a b ≤ 0

instance : DecidableRel rawHistLE := fun a b => by
  unfold rawHistLE; infer_instance

/-- getUserFeatures: look the user up (a missing record makes the source
dereference a field of undefined and throw, modelled as none), then return
age and gender followed by a one-hot occupation segment of width the
vocabulary size, all zero when the occupation has no vocabulary entry. -/
def getUserFeatures (users : List (Option ℤ × UserRec))
    (vocab : List (Option String × ℕ)) (userId : Option ℤ) :
    Option (List (Option ℚ)) :=
  match jsGet users userId with
  | none => none
  | some user =>
    let occupationIndex := jsGet vocab user.occupation
    let occupationOneHot : List ℚ :=
      match occupationIndex with
      | some i => (List.replicate vocab.length (0 : ℚ)).set i 1
      | none => List.replicate vocab.length 0
    some (user.age :: some user.gender :: occupationOneHot.map some)

/-- A candidate pushed by getRecommendations: the raw item id looked up in
the reverse item map (undefined when absent) and its score. -/
structure Candidate (κ : Type) where
  itemId : Option κ
  score : ℚ
deriving DecidableEq

/-- Set.has of the exclusion set applied to a possibly-undefined item id. -/
def ratedHas {κ : Type} [DecidableEq κ] (rated : List κ) (itemId : Option κ) :
    Bool :=
  match itemId with
  | some i => rated.contains i
  | none => false

/-- The forEach over scoreData in getRecommendations: for each position,
look up the raw item id in the reverse item map and push a candidate
unless the id is in the exclusion set. -/
def buildCandidates {κ : Type} [DecidableEq κ] (scoreData : List ℚ)
    (reverseItemMap : List (ℕ × κ)) (rated : List κ) : List (Candidate κ) :=
  scoreData.enum.foldl (fun cs p =>
    if ratedHas rated (jsGet reverseItemMap p.1) then cs
    else cs ++ [{ itemId := jsGet reverseItemMap p.1, score := p.2 }]) []

/-- Sort order of the candidate comparator b.score - a.score: descending
score. -/
def scoreGE {κ : Type} (a b : Candidate κ) : Prop := b.score ≤ a.score

instance {κ : Type} : DecidableRel (scoreGE (κ := κ)) := fun a b => by
  unfold scoreGE; infer_instance

instance {κ : Type} : IsTotal (Candidate κ) scoreGE :=
  ⟨fun a b => le_total b.score a.score⟩

instance {κ : Type} : IsTrans (Candidate κ) scoreGE :=
  ⟨fun _ _ _ hab hbc => le_trans hbc hab⟩

/-- getRecommendations, with the tensor part abstracted: the scores of the
full catalog (one per dense item index, in index order) are taken as an
input list, exactly the scoreData array the source reads off the score
tensor.  Build the candidate list, sort it by descending score and return
the first ten. -/
def getRecommendations {κ : Type} [DecidableEq κ] (scoreData : List ℚ)
    (reverseItemMap : List (ℕ × κ)) (rated : List κ) : List (Candidate κ) :=
  ((buildCandidates scoreData reverseItemMap rated).insertionSort scoreGE).take 10

/-- The three texts fetched by loadData, each already split into lines and
fields.  The fetch is a join of three requests: failure of any of them is
modelled by supplying none instead of this structure. -/
structure FetchedTexts where
  interactionLines : List (List String)
  itemLines : List (List String)
  userLines : List (List String)

/-- The data stores of a MovieLensApp instance.  The two model fields are
abstract type parameters: their tensor content is irrelevant to the claims
about the surrounding state machine. -/
structure AppState (μ ν : Type) where
  interactions : List RawInteraction
  items : List (Option ℤ × ItemRec)
  users : List (Option ℤ × UserRec)
  occupationVocab : List (Option String × ℕ)
  userMap : List (Option ℤ × ℕ)
  itemMap : List (Option ℤ × ℕ)
  reverseUserMap : List (ℕ × Option ℤ)
  reverseItemMap : List (ℕ × Option ℤ)
  userTopRated : List (Option ℤ × List RawInteraction)
  qualifiedUsers : List (Option ℤ)
  simpleModel : Option μ
  deepModel : Option ν
  lossHistory : List ℚ
  isTraining : Bool
  status : String

/-- createMappings: rebuild the id maps from the current interactions into
the existing map objects, then group interactions by user and sort every
group with the history comparator. -/
def createMappings {μ ν : Type} (st : AppState μ ν) : AppState μ ν :=
  let um := buildIndexMaps st.userMap st.reverseUserMap
    (st.interactions.map (fun i => i.userId))
  let im := buildIndexMaps st.itemMap st.reverseItemMap
    (st.interactions.map (fun i => i.itemId))
  let hist := (groupByKey (fun i => i.userId) st.interactions).map
    (fun p => (p.1, p.2.insertionSort rawHistLE))
  { st with userMap := um.1, reverseUserMap := um.2,
            itemMap := im.1, reverseItemMap := im.2, userTopRated := hist }

/-- findQualifiedUsers: replace the qualified list with the keys of the
per-user history whose group has at least 20 interactions. -/
def findQualifiedUsers {μ ν : Type} (st : AppState μ ν) : AppState μ ν :=
  { st with qualifiedUsers := qualifiedOf st.userTopRated }

/-- Terminal status written by the catch block of loadData.  The
interpolated detail text is irrelevant to the claims and elided. -/
def loadErrorStatus : String := "Error loading data"

/-- Status written at the end of a successful load. -/
def loadedStatus : String := "Loaded. Ready to train."

/-- Status written at the end of a completed training run. -/
def trainedStatus : String := "Training completed."

/-- loadData: fetch the three resources (a failed fetch reaches the catch
block before anything was parsed), assign the parsed interactions, run the
item forEach which can throw on a line whose title field is missing, then
parse the users, build the occupation vocabulary, create the mappings and
find the qualified users.  The catch block only writes the error status:
mutations already performed are kept. -/
def loadData {μ ν : Type} (st : AppState μ ν) (fetched : Option FetchedTexts)
    (maxInteractions : ℕ) : AppState μ ν :=
  match fetched with
  | none => { st with status := loadErrorStatus }
  | some t =>
    let st1 := { st with
      interactions := parseInteractions t.interactionLines maxInteractions }
    match parseItemsInto t.itemLines st.items with
    | (itemsSoFar, true) =>
      { st1 with items := itemsSoFar, status := loadErrorStatus }
    | (newItems, false) =>
      let st2 := { st1 with items := newItems }
      let parsedUsers := t.userLines.map parseUserLine
      let st3 := { st2 with
        users := parsedUsers.foldl (fun m p => jsSet m p.1 p.2) st2.users,
        occupationVocab := buildVocabInto st2.occupationVocab
          (parsedUsers.map (fun p => p.2.occupation)) }
      let st4 := findQualifiedUsers (createMappings st3)
      { st4 with status := loadedStatus }

/-- Recognized configuration options of the constructor. -/
structure TrainConfig where
  maxInteractions : ℕ
  embeddingDim : ℕ
  batchSize : ℕ
  epochs : ℕ
  learningRate : ℚ

/-- Default configuration values of the constructor. -/
def defaultConfig : TrainConfig :=
  { maxInteractions := 80000, embeddingDim := 32, batchSize := 512,
    epochs := 15, learningRate := 1 / 1000 }

/-- One batch iteration of the training loop.  The two trainStep calls are
supplied as parameters (they are tensor computations returning the updated
model and the batch loss); the slicing of the index arrays, the reverse id
lookups and the feature gathering follow the source.  A feature lookup for
a missing user or item record throws, modelled by a none result that
aborts the run. -/
def trainBatch {μ ν : Type}
    (stepSimple : μ → List (Option ℕ) → List (Option ℕ) → μ × ℚ)
    (stepDeep : ν → List (Option ℕ) → List (List (Option ℚ)) →
      List (Option ℕ) → List (List (Option ℤ)) → ν × ℚ)
    (st : AppState μ ν) (cfg : TrainConfig)
    (userIndices itemIndices : List (Option ℕ))
    (acc : μ × ν × List ℚ) (batch : ℕ) : Option (μ × ν × List ℚ) := do
  let start := batch * cfg.batchSize
  let stop := min (start + cfg.batchSize) userIndices.length
  let batchUsersSimple := (userIndices.drop start).take (stop - start)
  let batchItemsSimple := (itemIndices.drop start).take (stop - start)
  let simpleStep := stepSimple acc.1 batchUsersSimple batchItemsSimple
  let batchUserIds := batchUsersSimple.map
    (fun u => u.bind (fun idx => jsGet st.reverseUserMap idx))
  let batchItemIds := batchItemsSimple.map
    (fun i => i.bind (fun idx => jsGet st.reverseItemMap idx))
  let userFeatures ← batchUserIds.mapM (fun uid =>
    match uid with
    | none => none
    | some u => getUserFeatures st.users st.occupationVocab u)
  let itemFeatures ← batchItemIds.mapM (fun iid =>
    match iid with
    | none => none
    | some i => (jsGet st.items i).map (fun r => r.genres))
  let deepStep := stepDeep acc.2.1 batchUsersSimple userFeatures
    batchItemsSimple itemFeatures
  some (simpleStep.1, deepStep.1, acc.2.2 ++ [deepStep.2])

/-- train(): return at once when the guard flag is set; otherwise set the
guard, clear the loss history, initialize both models, derive the index
arrays, and run the epoch and batch loops, recording the deep loss of
every batch; finally store the trained models, release the guard and write
the completion status.  Random initialization and the optimizer steps are
supplied as parameters.  A throw inside the run (empty interactions, or a
feature lookup on a missing record) is modelled as a none result; the
claims settled here concern only the guarded entry. -/
def train {μ ν : Type}
    (initSimple : ℕ → ℕ → ℕ → μ)
    (initDeep : ℕ → ℕ → ℕ → ℕ → ℕ → ν)
    (stepSimple : μ → List (Option ℕ) → List (Option ℕ) → μ × ℚ)
    (stepDeep : ν → List (Option ℕ) → List (List (Option ℚ)) →
      List (Option ℕ) → List (List (Option ℤ)) → ν × ℚ)
    (cfg : TrainConfig) (st : AppState μ ν) : Option (AppState μ ν) :=
  if st.isTraining then some st
  else do
    let st1 := { st with isTraining := true, lossHistory := [] }
    let simple0 := initSimple st1.userMap.length st1.itemMap.length
      cfg.embeddingDim
    let first ← st1.interactions[0]?
    let uf0 ← getUserFeatures st1.users st1.occupationVocab first.userId
    let item0 ← jsGet st1.items first.itemId
    let deep0 := initDeep st1.userMap.length st1.itemMap.length
      cfg.embeddingDim uf0.length item0.genres.length
    let userIndices := st1.interactions.map (fun i => jsGet st1.userMap i.userId)
    let itemIndices := st1.interactions.map (fun i => jsGet st1.itemMap i.itemId)
    let numBatches := (userIndices.length + cfg.batchSize - 1) / cfg.batchSize
    let final ← (List.range cfg.epochs).foldlM
      (fun acc _ => (List.range numBatches).foldlM
        (trainBatch stepSimple stepDeep st1 cfg userIndices itemIndices) acc)
      (simple0, deep0, ([] : List ℚ))
    let stDone := { st1 with
      simpleModel := some final.1
      deepModel := some final.2.1
      lossHistory := final.2.2
      isTraining := false
      status := trainedStatus }
    some stDone

noncomputable section

/-- Sum of squares of a representation vector, the squared L2 norm.  The
deep-model claims are stated over exact reals, the standard idealization of
the float arithmetic the tensors use. -/
def sumSq {n : ℕ} (v : Fin n → ℝ) : ℝ := ∑ i, v i ^ 2

/-- Epsilon guard of tf.linalg.l2Normalize. -/
def epsNormalize : ℝ := 1 / 10 ^ 12

/-- tf.linalg.l2Normalize along the last axis, per row: divide every
component by the square root of the sum of squares guarded below by
epsilon. -/
def l2NormalizeRow {n : ℕ} (v : Fin n → ℝ) : Fin n → ℝ :=
  fun i => v i / Real.sqrt (max (sumSq v) epsNormalize)

/-- ReLU activation, componentwise. -/
def reluVec {n : ℕ} (v : Fin n → ℝ) : Fin n → ℝ := fun i => max (v i) 0

/-- A dense layer with weights w and bias b. -/
def denseLayer {m n : ℕ} (w : Fin n → Fin m → ℝ) (b : Fin n → ℝ)
    (x : Fin m → ℝ) : Fin n → ℝ :=
  fun j => (∑ i, w j i * x i) + b j

/-- Parameters of one tower of DeepTwoTowerModel: the ID embedding table
and the two dense layers (hidden layer with ReLU, linear output layer).
The user tower and the item tower each hold an independent copy. -/
structure TowerParams (numRows embeddingDim featureDim hiddenDim outDim : ℕ) where
  embeddings : Fin numRows → Fin embeddingDim → ℝ
  w1 : Fin hiddenDim → Fin (embeddingDim + featureDim) → ℝ
  b1 : Fin hiddenDim → ℝ
  w2 : Fin outDim → Fin hiddenDim → ℝ
  b2 : Fin outDim → ℝ

/-- One row of a tower forward pass before normalization: gather the ID
embedding row, concatenate the feature vector, apply dense1, ReLU and
dense2. -/
def towerPreNormalize {R D F H O : ℕ} (p : TowerParams R D F H O)
    (idx : Fin R) (feat : Fin F → ℝ) : Fin O → ℝ :=
  denseLayer p.w2 p.b2
    (reluVec (denseLayer p.w1 p.b1 (Fin.append (p.embeddings idx) feat)))

/-- One row of userForward / itemForward of DeepTwoTowerModel: the
pre-normalization output, L2-normalized. -/
def towerForwardRow {R D F H O : ℕ} (p : TowerParams R D F H O)
    (idx : Fin R) (feat : Fin F → ℝ) : Fin O → ℝ :=
  l2NormalizeRow (towerPreNormalize p idx feat)

/-- userForward of DeepTwoTowerModel on a batch: one output row per
(index, feature) pair. -/
def userForward {R D F H O : ℕ} (p : TowerParams R D F H O)
    (idxs : List (Fin R)) (feats : List (Fin F → ℝ)) : List (Fin O → ℝ) :=
  (idxs.zip feats).map (fun q => towerForwardRow p q.1 q.2)

/-- itemForward of DeepTwoTowerModel on a batch, identical in structure to
userForward but applied to the item-side parameters. -/
def itemForward {R D F H O : ℕ} (p : TowerParams R D F H O)
    (idxs : List (Fin R)) (feats : List (Fin F → ℝ)) : List (Fin O → ℝ) :=
  (idxs.zip feats).map (fun q => towerForwardRow p q.1 q.2)

/-- Dot product of a user representation and an item representation, the
recommendation score of getRecommendations. -/
def dotScore {n : ℕ} (u v : Fin n → ℝ) : ℝ := ∑ i, u i * v i

/-- Tower parameters that are all zero, in the smallest dimensions: the
pre-normalization output row is the zero vector. -/
def zeroTowerParams : TowerParams 1 1 0 1 1 :=
  { embeddings := fun _ _ => 0
    w1 := fun _ _ => 0
    b1 := fun _ => 0
    w2 := fun _ _ => 0
    b2 := fun _ => 0 }

/-- Tower parameters of ones with zero biases, in the smallest dimensions:
the pre-normalization output row is the vector with single entry one. -/
def oneTowerParams : TowerParams 1 1 0 1 1 :=
  { embeddings := fun _ _ => 1
    w1 := fun _ _ => 1
    b1 := fun _ => 0
    w2 := fun _ _ => 1
    b2 := fun _ => 0 }

end

/-- The stores of a freshly constructed MovieLensApp instance. -/
def emptyState : AppState Unit Unit :=
  { interactions := [], items := [], users := [], occupationVocab := []
    userMap := [], itemMap := [], reverseUserMap := [], reverseItemMap := []
    userTopRated := [], qualifiedUsers := [], simpleModel := none
    deepModel := none, lossHistory := [], isTraining := false
    status := "Click Load Data to start" }

/-- An application state holding one interaction from an earlier load. -/
def c4PriorState : AppState Unit Unit :=
  { emptyState with interactions :=
      [{ userId := some 1, itemId := some 1, rating := some 5,
         timestamp := some 100 }] }

/-- Fetched texts whose single item line is missing its title field, the
load input that makes the item forEach throw. -/
def c4Fetch : FetchedTexts :=
  { interactionLines := [["2", "3", "z", "5"]]
    itemLines := [["badline"]]
    userLines := [] }

/-- Fetched texts whose single interaction line has a non-numeric userId
and a non-numeric rating, while the item and user lines are well formed:
the split field lists of the texts abc tab 2 tab x tab 4, 1 pipe Movie,
and 1 pipe 24 pipe M pipe technician pipe 85711. -/
def c3Fetch : FetchedTexts :=
  { interactionLines := [["abc", "2", "x", "4"]]
    itemLines := [["1", "Movie"]]
    userLines := [["1", "24", "M", "technician", "85711"]] }

/-- An application state whose training guard flag is set. -/
def c9State : AppState Unit Unit :=
  { emptyState with isTraining := true }

/-- A two-interaction list for one user, already in rating-descending
order. -/
def c5List : List Interaction :=
  [{ userId := 1, itemId := 1, rating := 5, timestamp := 100 },
   { userId := 1, itemId := 2, rating := 3, timestamp := 101 }]

/-- The qualification boundary: user 1 has exactly 20 interactions, user 2
exactly 19. -/
def c8List : List Interaction :=
  List.replicate 20 { userId := 1, itemId := 1, rating := 5, timestamp := 100 } ++
    List.replicate 19 { userId := 2, itemId := 1, rating := 5, timestamp := 100 }

/-- A two-user, two-item interaction list. -/
def c2List : List Interaction :=
  [{ userId := 1, itemId := 7, rating := 5, timestamp := 100 },
   { userId := 2, itemId := 9, rating := 4, timestamp := 200 }]

/-- A user record whose occupation is absent from the test vocabulary. -/
def c6UserRec : UserRec :=
  { age := some 33, gender := 1, occupation := some "doctor" }

/-- A one-user table. -/
def c6Users : List (Option ℤ × UserRec) := [(some 1, c6UserRec)]

/-- A one-entry occupation vocabulary without the word doctor. -/
def c6Vocab : List (Option String × ℕ) := [(some "artist", 0)]

/-- Specification-side description of how one group of groupByKey evolves:
an absent group stays absent when nothing is appended, appears when the
first element arrives, and an existing group receives the new elements at
its end. -/
def combineGroup {α : Type} : Option (List α) → List α → Option (List α)
  | some g, f => some (g ++ f)
  | none, [] => none
  | none, f => some f

section MapLemmas

variable {α β γ : Type} [DecidableEq α]

theorem jsGet_nil (k : α) : jsGet ([] : List (α × β)) k = none := rfl

theorem jsGet_cons (p : α × β) (m : List (α × β)) (k : α) :
    jsGet (p :: m) k = if p.1 = k then some p.2 else jsGet m k := by
  by_cases h : p.1 = k
  · simp [jsGet, List.find?_cons, h]
  · simp [jsGet, List.find?_cons, h]

theorem jsGet_jsSet (m : List (α × β)) (k : α) (v : β) (k2 : α) :
    jsGet (jsSet m k v) k2 = if k = k2 then some v else jsGet m k2 := by
  induction m with
  | nil => by_cases h : k = k2 <;> simp [jsSet, jsGet_cons, jsGet_nil, h]
  | cons p rest ih =>
    by_cases hp : p.1 = k
    · simp only [jsSet, hp, if_true]
      rw [jsGet_cons, jsGet_cons]
      by_cases h : k = k2
      · simp [h]
      · have hne : ¬ p.1 = k2 := by rw [hp]; exact h
        simp [h, hne]
    · simp only [jsSet, hp, if_false]
      by_cases h2 : p.1 = k2
      · have : ¬ k = k2 := fun e => hp (e ▸ h2)
        simp [jsGet_cons, h2, this]
      · simp [jsGet_cons, h2, ih]

theorem jsSet_of_not_mem {m : List (α × β)} {k : α}
    (h : k ∉ m.map Prod.fst) (v : β) : jsSet m k v = m ++ [(k, v)] := by
  induction m with
  | nil => rfl
  | cons p rest ih =>
    simp only [List.map_cons, List.mem_cons] at h
    push_neg at h
    have hne : ¬ p.1 = k := fun e => h.1 e.symm
    simp [jsSet, hne, ih h.2]

theorem keys_jsSet (m : List (α × β)) (k : α) (v : β) :
    (jsSet m k v).map Prod.fst =
      if k ∈ m.map Prod.fst then m.map Prod.fst else m.map Prod.fst ++ [k] := by
  induction m with
  | nil => simp [jsSet]
  | cons p rest ih =>
    by_cases hp : p.1 = k
    · simp [jsSet, hp]
    · have : ¬ k = p.1 := fun e => hp e.symm
      simp only [jsSet, hp, if_false, List.map_cons, List.mem_cons]
      rw [ih]
      by_cases hk : k ∈ rest.map Prod.fst <;> simp [hk, this]

theorem nodup_keys_jsSet {m : List (α × β)} (hnd : (m.map Prod.fst).Nodup)
    (k : α) (v : β) : ((jsSet m k v).map Prod.fst).Nodup := by
  rw [keys_jsSet]
  by_cases hk : k ∈ m.map Prod.fst
  · simpa [hk]
  · simpa [hk, List.nodup_append] using hnd

theorem mem_of_jsGet_eq_some {m : List (α × β)} {k : α} {v : β}
    (h : jsGet m k = some v) : (k, v) ∈ m := by
  induction m with
  | nil => simp [jsGet_nil] at h
  | cons p rest ih =>
    rw [jsGet_cons] at h
    by_cases hp : p.1 = k
    · simp only [hp, if_true, Option.some_inj] at h
      exact List.mem_cons.mpr (Or.inl (by cases p; simp_all))
    · simp only [hp, if_false] at h
      exact List.mem_cons_of_mem _ (ih h)

theorem jsGet_eq_some_of_mem {m : List (α × β)} {k : α} {v : β}
    (hnd : (m.map Prod.fst).Nodup) (h : (k, v) ∈ m) : jsGet m k = some v := by
  induction m with
  | nil => simp at h
  | cons p rest ih =>
    simp only [List.map_cons, List.nodup_cons] at hnd
    rcases List.mem_cons.mp h with he | hm
    · rw [← he, jsGet_cons]
      simp
    · rw [jsGet_cons]
      have hk : p.1 ≠ k := by
        intro e
        exact hnd.1 (e ▸ List.mem_map_of_mem Prod.fst hm)
      simp [hk, ih hnd.2 hm]

theorem jsGet_mapValues (f : β → γ) (m : List (α × β)) (k : α) :
    jsGet (m.map (fun p => (p.1, f p.2))) k = (jsGet m k).map f := by
  induction m with
  | nil => simp [jsGet_nil]
  | cons p rest ih =>
    by_cases hp : p.1 = k <;> simp [jsGet_cons, hp, ih]

end MapLemmas

section FirstSeenLemmas

variable {α : Type} [DecidableEq α]

theorem mem_firstSeenAux (l : List α) :
    ∀ (seen : List α) (a : α), a ∈ firstSeenAux l seen ↔ a ∈ l ∧ a ∉ seen := by
  induction l with
  | nil => intro seen a; simp [firstSeenAux]
  | cons x xs ih =>
    intro seen a
    by_cases hx : x ∈ seen
    · rw [show firstSeenAux (x :: xs) seen = firstSeenAux xs seen by
        simp [firstSeenAux, hx]]
      rw [ih]
      constructor
      · rintro ⟨hm, hs⟩
        exact ⟨List.mem_cons_of_mem _ hm, hs⟩
      · rintro ⟨hm, hs⟩
        rcases List.mem_cons.mp hm with he | hm2
        · exact absurd (he ▸ hx) hs
        · exact ⟨hm2, hs⟩
    · rw [show firstSeenAux (x :: xs) seen = x :: firstSeenAux xs (x :: seen) by
        simp [firstSeenAux, hx]]
      by_cases ha : a = x
      · subst ha
        simp [hx]
      · simp only [List.mem_cons, ha, false_or]
        rw [ih]
        constructor
        · rintro ⟨hm, hs⟩
          refine ⟨hm, fun hmem => hs (List.mem_cons_of_mem _ hmem)⟩
        · rintro ⟨hm, hs⟩
          exact ⟨hm, fun hmem => by
            rcases List.mem_cons.mp hmem with he | hm2
            · exact ha he
            · exact hs hm2⟩

theorem mem_firstSeen (l : List α) (a : α) : a ∈ firstSeen l ↔ a ∈ l := by
  rw [firstSeen, mem_firstSeenAux]
  simp

theorem nodup_firstSeenAux (l : List α) :
    ∀ seen : List α, (firstSeenAux l seen).Nodup := by
  induction l with
  | nil => intro seen; simp [firstSeenAux]
  | cons x xs ih =>
    intro seen
    by_cases hx : x ∈ seen
    · rw [show firstSeenAux (x :: xs) seen = firstSeenAux xs seen by
        simp [firstSeenAux, hx]]
      exact ih seen
    · rw [show firstSeenAux (x :: xs) seen = x :: firstSeenAux xs (x :: seen) by
        simp [firstSeenAux, hx]]
      refine List.nodup_cons.mpr ⟨?_, ih (x :: seen)⟩
      intro hmem
      exact ((mem_firstSeenAux xs (x :: seen) x).mp hmem).2 (List.mem_cons_self x seen)

theorem nodup_firstSeen (l : List α) : (firstSeen l).Nodup :=
  nodup_firstSeenAux l []

end FirstSeenLemmas

section EnumLemmas

variable {α : Type} [DecidableEq α]

theorem jsGet_enumFrom (l : List α) (k n : ℕ) :
    jsGet (List.enumFrom k l) n = if n < k then none else l[n - k]? := by
  induction l generalizing k with
  | nil => by_cases h : n < k <;> simp [List.enumFrom, jsGet_nil, h]
  | cons a rest ih =>
    rw [show List.enumFrom k (a :: rest) = (k, a) :: List.enumFrom (k + 1) rest
      from rfl]
    rw [jsGet_cons]
    by_cases h : k = n
    · subst h
      simp [Nat.lt_irrefl]
    · simp only [h, if_false]
      rw [ih (k + 1)]
      by_cases h2 : n < k
      · have h3 : n < k + 1 := Nat.lt_succ_of_lt h2
        simp [h2, h3]
      · have hk : k < n := Nat.lt_of_le_of_ne (Nat.le_of_not_lt h2) h
        have h3 : ¬ n < k + 1 := by omega
        simp only [h2, h3, if_false]
        have he : n - k = (n - (k + 1)) + 1 := by omega
        rw [he, List.getElem?_cons_succ]

theorem jsGet_enumFrom_swap_eq {l : List α} (hnd : l.Nodup) (k : ℕ) {i : ℕ}
    {a : α} (h : l[i]? = some a) :
    jsGet ((List.enumFrom k l).map (fun p => (p.2, p.1))) a = some (k + i) := by
  induction l generalizing k i with
  | nil => simp at h
  | cons b rest ih =>
    rw [show ((List.enumFrom k (b :: rest)).map (fun p => (p.2, p.1))) =
      (b, k) :: (List.enumFrom (k + 1) rest).map (fun p => (p.2, p.1)) from rfl]
    rw [jsGet_cons]
    cases i with
    | zero =>
      rw [List.getElem?_cons_zero] at h
      injection h with h
      subst h
      simp
    | succ j =>
      rw [List.getElem?_cons_succ] at h
      have hb : ¬ b = a := by
        intro e
        subst e
        exact (List.nodup_cons.mp hnd).1 (List.getElem?_mem h)
      simp only [hb, if_false]
      rw [ih (List.nodup_cons.mp hnd).2 (k + 1) h]
      congr 1
      omega

theorem jsGet_enumFrom_swap_some {l : List α} (k : ℕ) {a : α} {n : ℕ}
    (h : jsGet ((List.enumFrom k l).map (fun p => (p.2, p.1))) a = some n) :
    ∃ i, l[i]? = some a ∧ n = k + i := by
  induction l generalizing k with
  | nil => simp [List.enumFrom, jsGet_nil] at h
  | cons b rest ih =>
    rw [show ((List.enumFrom k (b :: rest)).map (fun p => (p.2, p.1))) =
      (b, k) :: (List.enumFrom (k + 1) rest).map (fun p => (p.2, p.1)) from rfl] at h
    rw [jsGet_cons] at h
    by_cases hb : b = a
    · simp only [hb, if_true, Option.some_inj] at h
      exact ⟨0, by simp [hb], by omega⟩
    · simp only [hb, if_false] at h
      obtain ⟨i, hi, hn⟩ := ih (k + 1) h
      exact ⟨i + 1, by simpa using hi, by omega⟩

theorem foldl_jsSet_of_disjoint {β γ : Type} (f : γ → α) (g : γ → β)
    (pairs : List γ) :
    ∀ acc : List (α × β), (∀ p ∈ pairs, f p ∉ acc.map Prod.fst) →
      (pairs.map f).Nodup →
      pairs.foldl (fun m p => jsSet m (f p) (g p)) acc =
        acc ++ pairs.map (fun p => (f p, g p)) := by
  induction pairs with
  | nil => intro acc _ _; simp
  | cons p rest ih =>
    intro acc hdisj hnd
    simp only [List.foldl_cons]
    rw [jsSet_of_not_mem (hdisj p (List.mem_cons_self p rest))]
    rw [ih (acc ++ [(f p, g p)]) ?_ ?_]
    · simp
    · intro q hq
      simp only [List.map_append, List.mem_append]
      push_neg
      refine ⟨hdisj q (List.mem_cons_of_mem p hq), ?_⟩
      simp only [List.map_cons, List.map_nil, List.mem_singleton]
      simp only [List.map_cons, List.nodup_cons] at hnd
      intro e
      exact hnd.1 (e ▸ List.mem_map_of_mem f hq)
    · simp only [List.map_cons, List.nodup_cons] at hnd
      exact hnd.2

theorem buildIndexMaps_fst (ids : List α) :
    (buildIndexMaps [] [] ids).1 =
      (firstSeen ids).enum.map (fun p => (p.2, p.1)) := by
  unfold buildIndexMaps
  simp only []
  rw [foldl_jsSet_of_disjoint Prod.snd Prod.fst _ [] (by simp) ?_]
  · simp
  · rw [List.enum_map_snd]
    exact nodup_firstSeen ids

theorem buildIndexMaps_snd (ids : List α) :
    (buildIndexMaps [] [] ids).2 = (firstSeen ids).enum := by
  unfold buildIndexMaps
  simp only []
  rw [foldl_jsSet_of_disjoint Prod.fst Prod.snd _ [] (by simp) ?_]
  · simp
  · rw [List.enum_map_fst]
    exact List.nodup_range _

theorem buildIndexMaps_get_eq {ids : List α} {i : ℕ} {a : α}
    (h : (firstSeen ids)[i]? = some a) :
    jsGet (buildIndexMaps [] [] ids).1 a = some i ∧
      jsGet (buildIndexMaps [] [] ids).2 i = some a := by
  constructor
  · rw [buildIndexMaps_fst]
    have := jsGet_enumFrom_swap_eq (nodup_firstSeen ids) 0 h
    simpa [List.enum] using this
  · rw [buildIndexMaps_snd]
    have := jsGet_enumFrom (firstSeen ids) 0 i
    simp only [List.enum] at *
    simpa [h] using this

theorem buildIndexMaps_get_some {ids : List α} {a : α} {n : ℕ}
    (h : jsGet (buildIndexMaps [] [] ids).1 a = some n) :
    (firstSeen ids)[n]? = some a := by
  rw [buildIndexMaps_fst] at h
  simp only [List.enum] at h
  obtain ⟨i, hi, hn⟩ := jsGet_enumFrom_swap_some 0 h
  simpa [hn] using hi

theorem buildIndexMaps_rev_some {ids : List α} {n : ℕ} {a : α}
    (h : jsGet (buildIndexMaps [] [] ids).2 n = some a) :
    (firstSeen ids)[n]? = some a := by
  rw [buildIndexMaps_snd] at h
  simp only [List.enum] at h
  rw [jsGet_enumFrom] at h
  simpa using h

end EnumLemmas

section GroupLemmas

variable {κ α : Type} [DecidableEq κ]

theorem combineGroup_nil (g : Option (List α)) : combineGroup g [] = g := by
  cases g <;> simp [combineGroup]

theorem combineGroup_none_cons (a : α) (f : List α) :
    combineGroup none (a :: f) = some (a :: f) := rfl

theorem combineGroup_some (g f : List α) :
    combineGroup (some g) f = some (g ++ f) := rfl

theorem jsGet_groupByKey_aux (key : α → κ) (l : List α) :
    ∀ (m : List (κ × List α)) (k : κ),
      jsGet (l.foldl (fun m a =>
        match jsGet m (key a) with
        | none => jsSet m (key a) [a]
        | some g => jsSet m (key a) (g ++ [a])) m) k =
      combineGroup (jsGet m k) (l.filter (fun a => decide (key a = k))) := by
  induction l with
  | nil =>
    intro m k
    simp [combineGroup_nil]
  | cons a rest ih =>
    intro m k
    simp only [List.foldl_cons]
    by_cases hk : key a = k
    · cases hget : jsGet m (key a) with
      | none =>
        simp only [hget]
        rw [ih, jsGet_jsSet]
        have hmk : jsGet m k = none := hk ▸ hget
        simp [List.filter_cons, hk, hmk, combineGroup]
      | some g =>
        simp only [hget]
        rw [ih, jsGet_jsSet]
        have hmk : jsGet m k = some g := hk ▸ hget
        simp [List.filter_cons, hk, hmk, combineGroup]
    · have hne : ¬ key a = k := hk
      cases hget : jsGet m (key a) with
      | none =>
        simp only [hget]
        rw [ih, jsGet_jsSet]
        simp [List.filter_cons, hne]
      | some g =>
        simp only [hget]
        rw [ih, jsGet_jsSet]
        simp [List.filter_cons, hne]

theorem jsGet_groupByKey (key : α → κ) (l : List α) (k : κ) :
    jsGet (groupByKey key l) k =
      combineGroup none (l.filter (fun a => decide (key a = k))) := by
  unfold groupByKey
  rw [jsGet_groupByKey_aux]
  rfl

theorem nodup_keys_groupByKey (key : α → κ) (l : List α) :
    ((groupByKey key l).map Prod.fst).Nodup := by
  suffices h : ∀ m : List (κ × List α), (m.map Prod.fst).Nodup →
      ((l.foldl (fun m a =>
        match jsGet m (key a) with
        | none => jsSet m (key a) [a]
        | some g => jsSet m (key a) (g ++ [a])) m).map Prod.fst).Nodup by
    exact h [] (by simp)
  induction l with
  | nil => intro m hm; exact hm
  | cons a rest ih =>
    intro m hm
    simp only [List.foldl_cons]
    cases hget : jsGet m (key a) with
    | none =>
      simp only [hget]
      exact ih _ (nodup_keys_jsSet hm _ _)
    | some g =>
      simp only [hget]
      exact ih _ (nodup_keys_jsSet hm _ _)

theorem mem_qualifiedOf {β : Type} (hist : List (κ × List β)) (u : κ) :
    u ∈ qualifiedOf hist ↔ ∃ p ∈ hist, 20 ≤ p.2.length ∧ p.1 = u := by
  suffices h : ∀ acc : List κ,
      (u ∈ hist.foldl
        (fun acc p => if 20 ≤ p.2.length then acc ++ [p.1] else acc) acc ↔
      u ∈ acc ∨ ∃ p ∈ hist, 20 ≤ p.2.length ∧ p.1 = u) by
    have := h []
    simpa [qualifiedOf] using this
  induction hist with
  | nil => intro acc; simp
  | cons p rest ih =>
    intro acc
    simp only [List.foldl_cons]
    by_cases hp : 20 ≤ p.2.length
    · simp only [hp, if_true]
      rw [ih]
      constructor
      · rintro (hacc | hex)
        · rcases List.mem_append.mp hacc with h1 | h1
          · exact Or.inl h1
          · exact Or.inr ⟨p, List.mem_cons_self _ _, hp,
              (List.mem_singleton.mp h1).symm⟩
        · obtain ⟨q, hq, h20, he⟩ := hex
          exact Or.inr ⟨q, List.mem_cons_of_mem _ hq, h20, he⟩
      · rintro (hacc | ⟨q, hq, h20, he⟩)
        · exact Or.inl (List.mem_append.mpr (Or.inl hacc))
        · rcases List.mem_cons.mp hq with he2 | hm
          · exact Or.inl (List.mem_append.mpr (Or.inr
              (List.mem_singleton.mpr (he ▸ he2 ▸ rfl))))
          · exact Or.inr ⟨q, hm, h20, he⟩
    · simp only [hp, if_false]
      rw [ih]
      constructor
      · rintro (hacc | ⟨q, hq, h20, he⟩)
        · exact Or.inl hacc
        · exact Or.inr ⟨q, List.mem_cons_of_mem _ hq, h20, he⟩
      · rintro (hacc | ⟨q, hq, h20, he⟩)
        · exact Or.inl hacc
        · rcases List.mem_cons.mp hq with he2 | hm
          · exact absurd (he2 ▸ h20) hp
          · exact Or.inr ⟨q, hm, h20, he⟩

end GroupLemmas

section IndexMapSpec

variable {α : Type} [DecidableEq α]

theorem buildIndexMaps_total (ids : List α) :
    ∀ a ∈ firstSeen ids, ∃ n, jsGet (buildIndexMaps [] [] ids).1 a = some n := by
  intro a ha
  obtain ⟨i, hi⟩ := List.getElem?_of_mem ha
  exact ⟨i, (buildIndexMaps_get_eq hi).1⟩

theorem buildIndexMaps_roundtrip (ids : List α) :
    ∀ a n, jsGet (buildIndexMaps [] [] ids).1 a = some n →
      n < (firstSeen ids).length ∧
        jsGet (buildIndexMaps [] [] ids).2 n = some a := by
  intro a n h
  have hg := buildIndexMaps_get_some h
  exact ⟨(List.getElem?_eq_some.mp hg).1, (buildIndexMaps_get_eq hg).2⟩

theorem buildIndexMaps_surj (ids : List α) :
    ∀ n, n < (firstSeen ids).length →
      ∃ a ∈ firstSeen ids, jsGet (buildIndexMaps [] [] ids).1 a = some n := by
  intro n hn
  have hg := List.getElem?_eq_getElem hn
  exact ⟨(firstSeen ids)[n], List.getElem_mem hn, (buildIndexMaps_get_eq hg).1⟩

theorem buildIndexMaps_inj (ids : List α) :
    ∀ a b n, jsGet (buildIndexMaps [] [] ids).1 a = some n →
      jsGet (buildIndexMaps [] [] ids).1 b = some n → a = b := by
  intro a b n ha hb
  have h1 := buildIndexMaps_get_some ha
  have h2 := buildIndexMaps_get_some hb
  rw [h1] at h2
  injection h2

end IndexMapSpec

section HistoryLemmas

theorem jsGet_userTopRatedOf (l : List Interaction) (uid : ℤ) :
    jsGet (userTopRatedOf l) uid =
      (jsGet (groupByKey (fun i => i.userId) l) uid).map
        (fun g => g.insertionSort histLE) := by
  unfold userTopRatedOf
  exact jsGet_mapValues _ _ _

theorem nodup_keys_userTopRatedOf (l : List Interaction) :
    ((userTopRatedOf l).map Prod.fst).Nodup := by
  unfold userTopRatedOf
  rw [List.map_map]
  exact nodup_keys_groupByKey _ l

theorem exists_mem_iff_jsGet {κ β : Type} [DecidableEq κ] {m : List (κ × β)}
    (hnd : (m.map Prod.fst).Nodup) (u : κ) (P : β → Prop) :
    (∃ p ∈ m, P p.2 ∧ p.1 = u) ↔ ∃ g, jsGet m u = some g ∧ P g := by
  constructor
  · rintro ⟨p, hp, hP, he⟩
    refine ⟨p.2, ?_, hP⟩
    rw [← he]
    exact jsGet_eq_some_of_mem hnd (by simpa using hp)
  · rintro ⟨g, hg, hP⟩
    exact ⟨(u, g), mem_of_jsGet_eq_some hg, hP, rfl⟩

theorem histLE_imp {a b : Interaction} (h : histLE a b) :
    b.rating ≤ a.rating ∧ (a.rating = b.rating → b.timestamp ≤ a.timestamp) := by
  rcases h with hlt | ⟨he, ht⟩
  · exact ⟨le_of_lt hlt, fun heq => absurd (heq ▸ hlt) (lt_irrefl _)⟩
  · exact ⟨le_of_eq he, fun _ => ht⟩

end HistoryLemmas

section CandidateLemmas

variable {κ : Type} [DecidableEq κ]

theorem all_buildCandidates (scoreData : List ℚ) (revMap : List (ℕ × κ))
    (rated : List κ) :
    ∀ c ∈ buildCandidates scoreData revMap rated,
      ratedHas rated c.itemId = false := by
  unfold buildCandidates
  suffices h : ∀ (ps : List (ℕ × ℚ)) (acc : List (Candidate κ)),
      (∀ c ∈ acc, ratedHas rated c.itemId = false) →
      ∀ c ∈ ps.foldl (fun cs p =>
        if ratedHas rated (jsGet revMap p.1) then cs
        else cs ++ [{ itemId := jsGet revMap p.1, score := p.2 }]) acc,
        ratedHas rated c.itemId = false by
    exact h _ [] (by simp)
  intro ps
  induction ps with
  | nil => intro acc hacc c hc; exact hacc c hc
  | cons p rest ih =>
    intro acc hacc
    simp only [List.foldl_cons]
    by_cases hr : ratedHas rated (jsGet revMap p.1)
    · simp only [hr, if_true]
      exact ih acc hacc
    · simp only [hr, if_false]
      apply ih
      intro c hc
      rcases List.mem_append.mp hc with h1 | h1
      · exact hacc c h1
      · rw [List.mem_singleton.mp h1]
        exact Bool.not_eq_true _ ▸ (by simpa using hr)

end CandidateLemmas

section NormalizeLemmas

theorem sumSq_nonneg {n : ℕ} (v : Fin n → ℝ) : 0 ≤ sumSq v :=
  Finset.sum_nonneg fun i _ => sq_nonneg (v i)

theorem epsNormalize_pos : 0 < epsNormalize := by
  unfold epsNormalize
  norm_num

theorem max_sumSq_pos {n : ℕ} (v : Fin n → ℝ) :
    0 < max (sumSq v) epsNormalize :=
  lt_of_lt_of_le epsNormalize_pos (le_max_right _ _)

theorem sumSq_l2NormalizeRow {n : ℕ} (v : Fin n → ℝ) :
    sumSq (l2NormalizeRow v) = sumSq v / max (sumSq v) epsNormalize := by
  unfold sumSq l2NormalizeRow
  have hm : 0 ≤ max (sumSq v) epsNormalize := (max_sumSq_pos v).le
  simp_rw [div_pow]
  rw [Real.sq_sqrt hm, ← Finset.sum_div]
  rfl

theorem sumSq_l2NormalizeRow_le_one {n : ℕ} (v : Fin n → ℝ) :
    sumSq (l2NormalizeRow v) ≤ 1 := by
  rw [sumSq_l2NormalizeRow]
  exact div_le_one_of_le₀ (le_max_left _ _) (max_sumSq_pos v).le

theorem sqrt_sumSq_l2NormalizeRow_le_one {n : ℕ} (v : Fin n → ℝ) :
    Real.sqrt (sumSq (l2NormalizeRow v)) ≤ 1 := by
  calc Real.sqrt (sumSq (l2NormalizeRow v)) ≤ Real.sqrt 1 :=
        Real.sqrt_le_sqrt (sumSq_l2NormalizeRow_le_one v)
    _ = 1 := Real.sqrt_one

theorem sumSq_l2NormalizeRow_eq_one {n : ℕ} (v : Fin n → ℝ)
    (h : epsNormalize ≤ sumSq v) : sumSq (l2NormalizeRow v) = 1 := by
  rw [sumSq_l2NormalizeRow, max_eq_left h]
  exact div_self (ne_of_gt (lt_of_lt_of_le epsNormalize_pos h))

theorem dotScore_sq_le_one {n : ℕ} {u v : Fin n → ℝ}
    (hu : sumSq u ≤ 1) (hv : sumSq v ≤ 1) : dotScore u v ^ 2 ≤ 1 := by
  have hc := Finset.sum_mul_sq_le_sq_mul_sq Finset.univ u v
  have hnu := sumSq_nonneg u
  have hnv := sumSq_nonneg v
  unfold dotScore
  unfold sumSq at hu hv hnu hnv
  nlinarith

theorem dotScore_bounds {n : ℕ} {u v : Fin n → ℝ}
    (hu : sumSq u ≤ 1) (hv : sumSq v ≤ 1) :
    -1 ≤ dotScore u v ∧ dotScore u v ≤ 1 := by
  have h := dotScore_sq_le_one hu hv
  constructor <;> nlinarith [sq_nonneg (dotScore u v + 1), sq_nonneg (dotScore u v - 1)]

end NormalizeLemmas

/-- C1: for every score list, reverse item map and exclusion set of raw
item ids, getRecommendations returns at most 10 candidates, none of whose
item ids is in the exclusion set, sorted by descending score. -/
theorem c1_recommendations (scoreData : List ℚ) (revMap : List (ℕ × ℤ))
    (rated : List ℤ) :
    (getRecommendations scoreData revMap rated).length ≤ 10 ∧
    (getRecommendations scoreData revMap rated).all
      (fun c => !(ratedHas rated c.itemId)) = true ∧
    List.Sorted scoreGE (getRecommendations scoreData revMap rated) := by
  refine ⟨?_, ?_, ?_⟩
  · unfold getRecommendations
    exact List.length_take_le 10 _
  · rw [List.all_eq_true]
    intro c hc
    have hmem : c ∈ (buildCandidates scoreData revMap rated).insertionSort
        scoreGE := (List.take_sublist 10 _).subset hc
    have hmem2 : c ∈ buildCandidates scoreData revMap rated :=
      (List.perm_insertionSort scoreGE _).mem_iff.mp hmem
    have hr := all_buildCandidates scoreData revMap rated c hmem2
    simp [hr]
  · unfold getRecommendations
    exact List.Pairwise.sublist (List.take_sublist 10 _)
      (List.sorted_insertionSort scoreGE _)

/-- C2: after createMappings on an interaction list, the userMap sends the
distinct userIds of the list bijectively onto the range below numUsers,
with reverseUserMap undoing it (round-trip law); the same holds for the
item maps. -/
theorem c2_mappings (l : List Interaction) :
    (∀ uid ∈ distinctUserIds l, ∃ n, jsGet (userMapOf l) uid = some n) ∧
    (∀ uid n, jsGet (userMapOf l) uid = some n →
      n < (distinctUserIds l).length ∧
        jsGet (reverseUserMapOf l) n = some uid) ∧
    (∀ n, n < (distinctUserIds l).length →
      ∃ uid ∈ distinctUserIds l, jsGet (userMapOf l) uid = some n) ∧
    (∀ u1 u2 n, jsGet (userMapOf l) u1 = some n →
      jsGet (userMapOf l) u2 = some n → u1 = u2) ∧
    (∀ iid ∈ distinctItemIds l, ∃ n, jsGet (itemMapOf l) iid = some n) ∧
    (∀ iid n, jsGet (itemMapOf l) iid = some n →
      n < (distinctItemIds l).length ∧
        jsGet (reverseItemMapOf l) n = some iid) ∧
    (∀ n, n < (distinctItemIds l).length →
      ∃ iid ∈ distinctItemIds l, jsGet (itemMapOf l) iid = some n) ∧
    (∀ i1 i2 n, jsGet (itemMapOf l) i1 = some n →
      jsGet (itemMapOf l) i2 = some n → i1 = i2) :=
  ⟨buildIndexMaps_total _, buildIndexMaps_roundtrip _, buildIndexMaps_surj _,
   buildIndexMaps_inj _, buildIndexMaps_total _, buildIndexMaps_roundtrip _,
   buildIndexMaps_surj _, buildIndexMaps_inj _⟩

/-- Witness for C2 at a concrete two-user list: the dense index of user 1
is 0, below numUsers, and the reverse map sends it back to 1. -/
theorem c2_mappings_witness :
    0 < (distinctUserIds c2List).length ∧
    jsGet (reverseUserMapOf c2List) 0 = some 1 :=
  (c2_mappings c2List).2.1 1 0 (by decide)

/-- C5: every per-user history list produced by createMappings is
non-increasing in rating, with non-increasing timestamps among equal
ratings. -/
theorem c5_history_sorted (l : List Interaction) (p : ℤ × List Interaction)
    (hp : p ∈ userTopRatedOf l) :
    p.2.Pairwise (fun a b => b.rating ≤ a.rating ∧
      (a.rating = b.rating → b.timestamp ≤ a.timestamp)) := by
  unfold userTopRatedOf at hp
  obtain ⟨q, hq, he⟩ := List.mem_map.mp hp
  have hs : List.Sorted histLE (q.2.insertionSort histLE) :=
    List.sorted_insertionSort histLE q.2
  have hpe : p.2 = q.2.insertionSort histLE := by rw [← he]
  rw [hpe]
  exact List.Pairwise.imp (fun hab => histLE_imp hab) hs

/-- Witness for C5 at a concrete history. -/
theorem c5_history_sorted_witness :
    ((1 : ℤ), c5List).2.Pairwise (fun a b => b.rating ≤ a.rating ∧
      (a.rating = b.rating → b.timestamp ≤ a.timestamp)) :=
  c5_history_sorted c5List (1, c5List) (by decide)

/-- C8: a user is in the qualified set exactly when their interaction
count in the sequence is at least 20. -/
theorem c8_qualification (l : List Interaction) (uid : ℤ) :
    uid ∈ qualifiedOf (userTopRatedOf l) ↔
      20 ≤ (l.filter (fun i => i.userId = uid)).length := by
  rw [mem_qualifiedOf]
  rw [exists_mem_iff_jsGet (nodup_keys_userTopRatedOf l) uid
    (fun g => 20 ≤ g.length)]
  rw [jsGet_userTopRatedOf, jsGet_groupByKey]
  cases hf : l.filter (fun i => decide (i.userId = uid)) with
  | nil => simp [combineGroup]
  | cons b f2 =>
    rw [combineGroup_none_cons]
    constructor
    · rintro ⟨g, hg, hlen⟩
      rw [show Option.map (fun g => List.insertionSort histLE g)
        (some (b :: f2)) = some ((b :: f2).insertionSort histLE) from rfl] at hg
      injection hg with hg
      rw [← hg, List.length_insertionSort] at hlen
      exact hlen
    · intro h20
      exact ⟨(b :: f2).insertionSort histLE, rfl,
        by rw [List.length_insertionSort]; exact h20⟩

/-- Witness for C8 at the boundary: a user with exactly 20 interactions
qualifies, a user with exactly 19 does not. -/
theorem c8_qualification_witness :
    (1 : ℤ) ∈ qualifiedOf (userTopRatedOf c8List) ∧
    (2 : ℤ) ∉ qualifiedOf (userTopRatedOf c8List) := by
  constructor
  · exact (c8_qualification c8List 1).mpr (by decide)
  · intro h
    exact absurd ((c8_qualification c8List 2).mp h) (by decide)

/-- C6: for a userId with a user record, getUserFeatures returns a vector
of length exactly 2 plus the vocabulary size, and an occupation without a
vocabulary entry yields an all-zero one-hot segment, with no error. -/
theorem c6_features (users : List (Option ℤ × UserRec))
    (vocab : List (Option String × ℕ)) (uid : Option ℤ) (user : UserRec)
    (h : jsGet users uid = some user) :
    (getUserFeatures users vocab uid).isSome = true ∧
    ∀ v, getUserFeatures users vocab uid = some v →
      v.length = 2 + vocab.length ∧
      (jsGet vocab user.occupation = none →
        v.drop 2 = List.replicate vocab.length (some (0 : ℚ))) := by
  cases hocc : jsGet vocab user.occupation with
  | none =>
    have hval : getUserFeatures users vocab uid =
        some (user.age :: some user.gender ::
          (List.replicate vocab.length (0 : ℚ)).map some) := by
      simp [getUserFeatures, h, hocc]
    refine ⟨by rw [hval]; rfl, ?_⟩
    intro v hv
    rw [hval] at hv
    injection hv with hv
    subst hv
    constructor
    · simp only [List.length_cons, List.length_map, List.length_replicate]
      omega
    · intro _
      show (List.replicate vocab.length (0 : ℚ)).map some =
        List.replicate vocab.length (some 0)
      exact List.map_replicate
  | some i =>
    have hval : getUserFeatures users vocab uid =
        some (user.age :: some user.gender ::
          ((List.replicate vocab.length (0 : ℚ)).set i 1).map some) := by
      simp [getUserFeatures, h, hocc]
    refine ⟨by rw [hval]; rfl, ?_⟩
    intro v hv
    rw [hval] at hv
    injection hv with hv
    subst hv
    constructor
    · simp only [List.length_cons, List.length_map, List.length_set,
        List.length_replicate]
      omega
    · intro hnone
      exact Option.noConfusion hnone

/-- Witness for C6 at a user whose occupation is missing from the
vocabulary. -/
theorem c6_features_witness :
    ([some (33 : ℚ), some 1, some 0] : List (Option ℚ)).length =
        2 + c6Vocab.length ∧
    ([some (33 : ℚ), some 1, some 0] : List (Option ℚ)).drop 2 =
        List.replicate c6Vocab.length (some (0 : ℚ)) := by
  have h := c6_features c6Users c6Vocab (some 1) c6UserRec (by decide)
  have h2 := h.2 [some (33 : ℚ), some 1, some 0] (by decide)
  exact ⟨h2.1, h2.2 (by decide)⟩

/-- C10: for a userId with no user record, getUserFeatures dereferences a
field of undefined and fails rather than returning a vector. -/
theorem c10_missing_user (users : List (Option ℤ × UserRec))
    (vocab : List (Option String × ℕ)) (uid : Option ℤ)
    (h : jsGet users uid = none) : getUserFeatures users vocab uid = none := by
  simp [getUserFeatures, h]

/-- Witness for C10 on an empty user table. -/
theorem c10_missing_user_witness :
    getUserFeatures [] c6Vocab (some 5) = none :=
  c10_missing_user [] c6Vocab (some 5) rfl

/-- C9: whenever the isTraining guard flag is set, train returns at once
with the state unchanged: no model initialization, no loss-history reset,
no training step. -/
theorem c9_guard {μ ν : Type} (initSimple : ℕ → ℕ → ℕ → μ)
    (initDeep : ℕ → ℕ → ℕ → ℕ → ℕ → ν)
    (stepSimple : μ → List (Option ℕ) → List (Option ℕ) → μ × ℚ)
    (stepDeep : ν → List (Option ℕ) → List (List (Option ℚ)) →
      List (Option ℕ) → List (List (Option ℤ)) → ν × ℚ)
    (cfg : TrainConfig) (st : AppState μ ν) (h : st.isTraining = true) :
    train initSimple initDeep stepSimple stepDeep cfg st = some st := by
  unfold train
  rw [h]
  simp

/-- Witness for C9 on a state whose guard flag is set. -/
theorem c9_guard_witness :
    train (fun _ _ _ => ()) (fun _ _ _ _ _ => ()) (fun m _ _ => (m, 0))
      (fun m _ _ _ _ => (m, 0)) defaultConfig c9State = some c9State :=
  c9_guard _ _ _ _ defaultConfig c9State rfl

/-- Counterexample to C3 as stated: on an interaction line with a
non-numeric userId and rating, the load finishes with the success status
(no fatal error) and the line is kept as a record whose unparsable fields
are NaN. -/
theorem c3_counterexample :
    (loadData emptyState (some c3Fetch) 10).status = loadedStatus ∧
    loadedStatus ≠ loadErrorStatus ∧
    (loadData emptyState (some c3Fetch) 10).interactions =
      [{ userId := none, itemId := some 2, rating := none,
         timestamp := some 4 }] := by
  decide

/-- C3 amended: a malformed interaction line is not a fatal error: when
the item lines parse, the load reaches the success status regardless of
the interaction lines content, the parse never skips a line, and each kept
line maps to the record of its parsed fields, NaN where unparsable. -/
theorem c3_amended {μ ν : Type} (st : AppState μ ν) (t : FetchedTexts)
    (maxI : ℕ) (h : (parseItemsInto t.itemLines st.items).2 = false) :
    (loadData st (some t) maxI).status = loadedStatus ∧
    (loadData st (some t) maxI).interactions =
      (t.interactionLines.take maxI).map parseInteractionLine := by
  cases hpi : parseItemsInto t.itemLines st.items with
  | mk pitems b =>
    rw [hpi] at h
    have hb : b = false := h
    subst hb
    simp only [loadData]
    rw [hpi]
    exact ⟨rfl, rfl⟩

/-- Witness for the amended C3, at the malformed concrete input. -/
theorem c3_amended_witness :
    (loadData emptyState (some c3Fetch) 10).status = loadedStatus ∧
    (loadData emptyState (some c3Fetch) 10).interactions =
      (c3Fetch.interactionLines.take 10).map parseInteractionLine :=
  c3_amended emptyState c3Fetch 10 (by decide)

/-- Counterexample to C4 as stated: a load in which the item forEach
throws still replaces the previously held interactions store, so an
aborted load does not leave every prior data store untouched. -/
theorem c4_counterexample :
    (parseItemsInto c4Fetch.itemLines c4PriorState.items).2 = true ∧
    (loadData c4PriorState (some c4Fetch) 10).interactions ≠
      c4PriorState.interactions := by
  decide

/-- C4 amended: an exception in the item forEach aborts the rest of the
load with the single error status, leaving the stores not yet reached
(users, vocabulary, index maps, histories, qualified users, models)
untouched, but the mutations already performed persist: the interactions
store holds the freshly parsed records and the items store keeps the
entries inserted before the faulty line. -/
theorem c4_amended {μ ν : Type} (st : AppState μ ν) (t : FetchedTexts)
    (maxI : ℕ) (h : (parseItemsInto t.itemLines st.items).2 = true) :
    loadData st (some t) maxI = { st with
      interactions := parseInteractions t.interactionLines maxI
      items := (parseItemsInto t.itemLines st.items).1
      status := loadErrorStatus } := by
  cases hpi : parseItemsInto t.itemLines st.items with
  | mk pitems b =>
    rw [hpi] at h
    have hb : b = true := h
    subst hb
    simp only [loadData]
    rw [hpi]

/-- Witness for the amended C4 at the concrete throwing load. -/
theorem c4_amended_witness :
    loadData c4PriorState (some c4Fetch) 10 = { c4PriorState with
      interactions := parseInteractions c4Fetch.interactionLines 10
      items := (parseItemsInto c4Fetch.itemLines c4PriorState.items).1
      status := loadErrorStatus } :=
  c4_amended c4PriorState c4Fetch 10 (by decide)

/-- Counterexample to C7 as stated: with all-zero tower parameters the
pre-normalization row is zero, the epsilon guard of l2Normalize leaves it
zero, and the returned row of userForward has L2 norm 0, not 1. -/
theorem c7_counterexample :
    towerForwardRow zeroTowerParams 0 (fun i => i.elim0) ∈
      userForward zeroTowerParams [0] [fun i => i.elim0] ∧
    Real.sqrt (sumSq (towerForwardRow zeroTowerParams 0 (fun i => i.elim0))) = 0 ∧
    Real.sqrt (sumSq (towerForwardRow zeroTowerParams 0 (fun i => i.elim0))) ≠ 1 := by
  have hpre : towerPreNormalize zeroTowerParams 0 (fun i => i.elim0) =
      fun _ => 0 := by
    funext j
    simp [towerPreNormalize, denseLayer, reluVec, zeroTowerParams]
  have hz : sumSq (towerForwardRow zeroTowerParams 0 (fun i => i.elim0)) = 0 := by
    unfold towerForwardRow
    rw [hpre]
    simp [sumSq, l2NormalizeRow]
  refine ⟨?_, ?_, ?_⟩
  · simp [userForward]
  · rw [hz, Real.sqrt_zero]
  · rw [hz, Real.sqrt_zero]
    norm_num

/-- C7 amended: every row returned by userForward or itemForward has L2
norm at most 1, and exactly 1 whenever the squared norm of the
pre-normalization row is at least the epsilon guard of l2Normalize;
consequently every deep-model score, a dot product of two returned rows,
lies between -1 and 1. -/
theorem c7_amended {Ru Du Fu Hu Ri Di Fi Hi O : ℕ}
    (pu : TowerParams Ru Du Fu Hu O) (qi : TowerParams Ri Di Fi Hi O)
    (idxsu : List (Fin Ru)) (featsu : List (Fin Fu → ℝ))
    (idxsi : List (Fin Ri)) (featsi : List (Fin Fi → ℝ)) :
    (∀ row ∈ userForward pu idxsu featsu, Real.sqrt (sumSq row) ≤ 1) ∧
    (∀ row ∈ itemForward qi idxsi featsi, Real.sqrt (sumSq row) ≤ 1) ∧
    (∀ (idx : Fin Ru) (feat : Fin Fu → ℝ),
      epsNormalize ≤ sumSq (towerPreNormalize pu idx feat) →
      Real.sqrt (sumSq (towerForwardRow pu idx feat)) = 1) ∧
    (∀ u ∈ userForward pu idxsu featsu, ∀ v ∈ itemForward qi idxsi featsi,
      -1 ≤ dotScore u v ∧ dotScore u v ≤ 1) := by
  refine ⟨?_, ?_, ?_, ?_⟩
  · intro row hrow
    obtain ⟨q, _, he⟩ := List.mem_map.mp hrow
    rw [← he]
    exact sqrt_sumSq_l2NormalizeRow_le_one _
  · intro row hrow
    obtain ⟨q, _, he⟩ := List.mem_map.mp hrow
    rw [← he]
    exact sqrt_sumSq_l2NormalizeRow_le_one _
  · intro idx feat hge
    unfold towerForwardRow
    rw [Real.sqrt_eq_one]
    exact sumSq_l2NormalizeRow_eq_one _ hge
  · intro u hu v hv
    obtain ⟨a, _, hea⟩ := List.mem_map.mp hu
    obtain ⟨b, _, heb⟩ := List.mem_map.mp hv
    rw [← hea, ← heb]
    exact dotScore_bounds (sumSq_l2NormalizeRow_le_one _)
      (sumSq_l2NormalizeRow_le_one _)

/-- Witness for the amended C7: tower parameters whose pre-normalization
row has squared norm 1, above the epsilon guard, give a returned row of L2
norm exactly 1. -/
theorem c7_amended_witness :
    Real.sqrt (sumSq (towerForwardRow oneTowerParams 0 (fun i => i.elim0))) = 1 := by
  have hx : ∀ i : Fin (1 + 0),
      Fin.append (fun _ : Fin 1 => (1 : ℝ)) (fun j : Fin 0 => j.elim0) i = 1 := by
    intro i
    have hi : (i : ℕ) < 1 := by have h0 := i.isLt; omega
    simp [Fin.append, Fin.addCases, hi]
  have hpre : sumSq (towerPreNormalize oneTowerParams 0 (fun i => i.elim0)) = 1 := by
    simp [sumSq, towerPreNormalize, denseLayer, reluVec, oneTowerParams, hx]
  exact (c7_amended oneTowerParams oneTowerParams [] [] [] []).2.2.1 0
    (fun i => i.elim0) (by rw [hpre]; unfold epsNormalize; norm_num)

end RecSys
